import Mathlib

/-!
Verification development for the roster-balancing engine of
`BendoWithMasterApp.py` (hockey team balancer).

The Python pipeline is embedded shallowly: dataframes become `List Player`,
in-place column mutation becomes functional record update, and each numbered
stage of the script (targets, fill-gaps conversions, rivalry separation,
draft, composition) becomes a Lean function.  The random shuffle performed
before rank-sorting only permutes the input list; theorems quantify over the
input order, so every shuffle outcome is covered.
-/

namespace Bendo

/-- One row of the daily sheet, with the canonical fields the balancing
pipeline reads.  `position` models the `Position` column the script adds when
a player is pinned or selected (`none` = column not set for this row).
String fields hold the raw cell text; the script's cleaning
(`strip`/`upper`/`lower`) is applied at each point of use, as in the source. -/
structure Player where
  name : String
  availability : String
  firstChoice : String
  secondChoice : String
  score : Int
  regSpare : String
  email : String
  position : Option String := none
deriving DecidableEq

/-- ASCII whitespace stripped by `str.strip()`. -/
def isWS (c : Char) : Bool := c == ' ' || c == '\t' || c == '\n' || c == '\r'

/-- `str.upper()` (character-wise, as on the ASCII data of the sheets). -/
def upperStr (s : String) : String := ⟨s.data.map Char.toUpper⟩

/-- `str.lower()`. -/
def lowerStr (s : String) : String := ⟨s.data.map Char.toLower⟩

/-- `str.strip()`. -/
def trimStr (s : String) : String :=
  ⟨((s.data.dropWhile isWS).reverse.dropWhile isWS).reverse⟩

/-- `s.startswith('Y')` for a single-character prefix. -/
def firstIsY (s : String) : Bool :=
  match s.data with
  | [] => false
  | c :: _ => c == 'Y'

/-- Cleaned availability test: `str.strip().upper().startswith('Y')`
(lines 159 and 220 of the source). -/
def isAvailable (p : Player) : Bool :=
  firstIsY (upperStr (trimStr p.availability))

/-- Cleaned first-choice position, `str.strip().upper()` (line 160). -/
def fc (p : Player) : String := upperStr (trimStr p.firstChoice)

/-- Cleaned second-choice position (line 169). -/
def sc (p : Player) : String := upperStr (trimStr p.secondChoice)

/-- `Status_Rank` column: 0 when `Reg/Spare` strips-and-uppercases to `R`,
else 1 (line 259). -/
def statusRank (p : Player) : Nat :=
  if upperStr (trimStr p.regSpare) = "R" then 0 else 1

/-- Quota computation of stage 4 (lines 230-237): base quotas (12, 8); above
20 available players the excess goes to forwards first (cap 6), then to
defense (cap 4). -/
def computeTargets (total : Nat) : Nat × Nat :=
  if total ≤ 20 then (12, 8)
  else
    let extras := total - 20
    let add_to_f := min extras 6
    let extras2 := extras - add_to_f
    let add_to_d := min extras2 4
    (12 + add_to_f, 8 + add_to_d)

/-- The loop body of `snake_draft` (lines 17-22), indexed by the running
0-based position `i`: indices with `i % 4 ∈ {0, 3}` go to team A, the rest
to team B, preserving order. -/
def snakeGo {α : Type} (i : Nat) : List α → List α × List α
  | [] => ([], [])
  | p :: ps =>
    let r := snakeGo (i + 1) ps
    if i % 4 == 0 || i % 4 == 3 then (p :: r.1, r.2) else (r.1, p :: r.2)

/-- `snake_draft` (lines 10-31): distribute a pool over two teams in the
repeating pattern A, B, B, A. -/
def snake_draft {α : Type} (players : List α) : List α × List α :=
  snakeGo 0 players

/-- Index predicate of the snake pattern. -/
def snakeIdx (i : Nat) : Bool := i % 4 == 0 || i % 4 == 3

theorem snakeGo_eq_enumFrom {α : Type} (i : Nat) (l : List α) :
    snakeGo i l =
      (((l.enumFrom i).filter (fun q => snakeIdx q.1)).map Prod.snd,
       ((l.enumFrom i).filter (fun q => !snakeIdx q.1)).map Prod.snd) := by
  induction l generalizing i with
  | nil => rfl
  | cons p ps ih =>
    have hidx : snakeIdx i = (i % 4 == 0 || i % 4 == 3) := rfl
    simp only [snakeGo, List.enumFrom, List.filter_cons]
    cases h : (i % 4 == 0 || i % 4 == 3) with
    | true => simp [ih, hidx, h]
    | false => simp [ih, hidx, h]

theorem snakeGo_fst_sublist {α : Type} (i : Nat) (l : List α) :
    (snakeGo i l).1.Sublist l := by
  induction l generalizing i with
  | nil => simp [snakeGo]
  | cons p ps ih =>
    simp only [snakeGo]
    cases h : (i % 4 == 0 || i % 4 == 3) with
    | true => simpa [h] using (ih (i + 1)).cons₂ p
    | false => simpa [h] using (ih (i + 1)).cons p

theorem snakeGo_snd_sublist {α : Type} (i : Nat) (l : List α) :
    (snakeGo i l).2.Sublist l := by
  induction l generalizing i with
  | nil => simp [snakeGo]
  | cons p ps ih =>
    simp only [snakeGo]
    cases h : (i % 4 == 0 || i % 4 == 3) with
    | true => simpa [h] using (ih (i + 1)).cons p
    | false => simpa [h] using (ih (i + 1)).cons₂ p

theorem snakeGo_length_sum {α : Type} (i : Nat) (l : List α) :
    (snakeGo i l).1.length + (snakeGo i l).2.length = l.length := by
  induction l generalizing i with
  | nil => rfl
  | cons p ps ih =>
    have hsum := ih (i + 1)
    simp only [snakeGo]
    cases h : (i % 4 == 0 || i % 4 == 3) with
    | true => simp [h]; omega
    | false => simp [h]; omega

theorem filter_fst_length {α : Type} (c : Nat → Bool) (l : List (Nat × α)) :
    (l.filter (fun q => c q.1)).length = ((l.map Prod.fst).filter c).length := by
  induction l with
  | nil => rfl
  | cons x xs ih =>
    cases h : c x.1 <;> simp [List.filter_cons, h, ih]

theorem snakeIdx_count (n : Nat) :
    ((List.range n).filter snakeIdx).length = n / 2 + (if n % 4 = 1 then 1 else 0) := by
  induction n with
  | zero => rfl
  | succ n ih =>
    rw [List.range_succ, List.filter_append, List.length_append]
    have h4 : n % 4 = 0 ∨ n % 4 = 1 ∨ n % 4 = 2 ∨ n % 4 = 3 := by omega
    rcases h4 with h | h | h | h
    · rw [if_pos (by omega : (n + 1) % 4 = 1)]
      simp [snakeIdx, h, ih]
      omega
    · rw [if_neg (by omega : ¬(n + 1) % 4 = 1)]
      simp [snakeIdx, h, ih]
      omega
    · rw [if_neg (by omega : ¬(n + 1) % 4 = 1)]
      simp [snakeIdx, h, ih]
      omega
    · rw [if_neg (by omega : ¬(n + 1) % 4 = 1)]
      simp [snakeIdx, h, ih]
      omega

theorem snake_draft_fst_length {α : Type} (l : List α) :
    (snake_draft l).1.length = l.length / 2 + (if l.length % 4 = 1 then 1 else 0) := by
  rw [snake_draft, snakeGo_eq_enumFrom]
  simp only [List.length_map]
  rw [filter_fst_length snakeIdx, List.enumFrom_map_fst, ← List.range_eq_range',
    snakeIdx_count]

/-- C3: the snake drafter sends the player at 0-based index `i` to team A
exactly when `i % 4 ∈ {0, 3}` and to team B otherwise, each team is an
order-preserving subsequence of the input, and on the 8-player pool
`[P1..P8]` it yields `({P1,P4,P5,P8}, {P2,P3,P6,P7})`. -/
theorem snake_draft_index_rule :
    (∀ (α : Type) (pool : List α),
        (snake_draft pool).1 =
          ((pool.enumFrom 0).filter (fun q => snakeIdx q.1)).map Prod.snd ∧
        (snake_draft pool).2 =
          ((pool.enumFrom 0).filter (fun q => !snakeIdx q.1)).map Prod.snd ∧
        (snake_draft pool).1.Sublist pool ∧ (snake_draft pool).2.Sublist pool) ∧
      snake_draft ["P1", "P2", "P3", "P4", "P5", "P6", "P7", "P8"] =
        (["P1", "P4", "P5", "P8"], ["P2", "P3", "P6", "P7"]) := by
  constructor
  · intro α pool
    have h := snakeGo_eq_enumFrom 0 pool
    exact ⟨by rw [snake_draft, h], by rw [snake_draft, h],
      snakeGo_fst_sublist 0 pool, snakeGo_snd_sublist 0 pool⟩
  · rfl

/-- C2: the quota calculator is a pure function of the available count:
`(12, 8)` up to 20 players, then the excess is allocated to the forward quota
first (cap 6) and to the defense quota second (cap 4); in particular
`20 ↦ (12,8)`, `26 ↦ (18,8)`, `30 ↦ (18,12)`, `18 ↦ (12,8)`. -/
theorem computeTargets_rule :
    (∀ total : Nat,
        computeTargets total =
          if total ≤ 20 then (12, 8)
          else (12 + min (total - 20) 6,
                8 + min (total - 20 - min (total - 20) 6) 4)) ∧
      computeTargets 20 = (12, 8) ∧ computeTargets 26 = (18, 8) ∧
      computeTargets 30 = (18, 12) ∧ computeTargets 18 = (12, 8) :=
  ⟨fun _ => rfl, rfl, rfl, rfl, rfl⟩

/-- C10: the two teams produced by the snake drafter have sizes summing to
the pool size, and their sizes differ by at most one. -/
theorem snake_draft_team_sizes :
    ∀ (α : Type) (pool : List α),
      (snake_draft pool).1.length + (snake_draft pool).2.length = pool.length ∧
      |((snake_draft pool).1.length : ℤ) - ((snake_draft pool).2.length : ℤ)| ≤ 1 := by
  intro α pool
  have hsum := snakeGo_length_sum 0 pool
  have hfst := snake_draft_fst_length pool
  rw [snake_draft] at hfst ⊢
  refine ⟨hsum, ?_⟩
  rw [abs_le]
  by_cases hc : pool.length % 4 = 1 <;> simp [hc] at hfst <;> constructor <;> omega

/-- Critical defense floor (line 228). -/
def MIN_D_CRITICAL : Nat := 6

/-- Take the first `n` elements satisfying `P` out of a list, returning them
together with the list they were removed from (order preserved).  This models
`candidates = pool[pred]; converts = candidates.head(n); pool.drop(converts.index)`
in one pass. -/
def takeConverts {α : Type} (P : α → Bool) : Nat → List α → List α × List α
  | 0, l => ([], l)
  | _ + 1, [] => ([], [])
  | n + 1, x :: xs =>
    if P x then
      let r := takeConverts P n xs
      (x :: r.1, r.2)
    else
      let r := takeConverts P (n + 1) xs
      (r.1, x :: r.2)

theorem takeConverts_fst {α : Type} (P : α → Bool) (n : Nat) (l : List α) :
    (takeConverts P n l).1 = (l.filter P).take n := by
  induction l generalizing n with
  | nil => cases n <;> rfl
  | cons x xs ih =>
    cases n with
    | zero => rfl
    | succ n =>
      cases h : P x <;> simp [takeConverts, List.filter_cons, h, ih]

theorem takeConverts_perm {α : Type} (P : α → Bool) (n : Nat) (l : List α) :
    ((takeConverts P n l).1 ++ (takeConverts P n l).2).Perm l := by
  induction l generalizing n with
  | nil => cases n <;> rfl
  | cons x xs ih =>
    cases n with
    | zero => rfl
    | succ n =>
      cases h : P x with
      | true => simpa [takeConverts, h] using (ih n).cons x
      | false =>
        simp only [takeConverts, h, Bool.false_eq_true, if_false]
        exact List.perm_middle.trans ((ih (n + 1)).cons x)

theorem takeConverts_length_le {α : Type} (P : α → Bool) (n : Nat) (l : List α) :
    (takeConverts P n l).1.length ≤ n := by
  rw [takeConverts_fst]
  exact (List.length_take_le _ _).trans (le_refl n)

theorem takeConverts_length_sum {α : Type} (P : α → Bool) (n : Nat) (l : List α) :
    (takeConverts P n l).1.length + (takeConverts P n l).2.length = l.length := by
  have h := (takeConverts_perm P n l).length_eq
  simpa using h

/-- Fill-gaps pass 1 (lines 266-273): if the defense pool is below the
critical floor, convert up to the deficit many second-choice-D forwards,
first in pool order, appending them to the defense pool. -/
def criticalDefenseFill (pd pf : List Player) : List Player × List Player :=
  if pd.length < MIN_D_CRITICAL then
    let needed := MIN_D_CRITICAL - pd.length
    let candidates := pf.filter (fun p => sc p == "D")
    if candidates.isEmpty then (pd, pf)
    else
      let r := takeConverts (fun p => sc p == "D") needed pf
      (pd ++ r.1, r.2)
  else (pd, pf)

/-- Fill-gaps pass 2 (lines 275-285): if the forward pool is under target and
the defense pool is above the critical floor, convert up to
`min needed surplus_d` second-choice-F defenders. -/
def forwardFill (target_f : Nat) (pd pf : List Player) : List Player × List Player :=
  if pf.length < target_f then
    let needed := target_f - pf.length
    if MIN_D_CRITICAL < pd.length then
      let surplus_d := pd.length - MIN_D_CRITICAL
      let can_take := min needed surplus_d
      let candidates := pd.filter (fun p => sc p == "F")
      if candidates.isEmpty then (pd, pf)
      else
        let r := takeConverts (fun p => sc p == "F") can_take pd
        (r.2, pf ++ r.1)
    else (pd, pf)
  else (pd, pf)

/-- Fill-gaps pass 3 (lines 287-297): if the defense pool is under target and
the forward pool is above target, convert up to `min shortage surplus_f`
second-choice-D forwards. -/
def defenseFill (target_f target_d : Nat) (pd pf : List Player) :
    List Player × List Player :=
  if pd.length < target_d then
    let d_shortage := target_d - pd.length
    if target_f < pf.length then
      let surplus_f := pf.length - target_f
      let amount := min d_shortage surplus_f
      let candidates := pf.filter (fun p => sc p == "D")
      if candidates.isEmpty then (pd, pf)
      else
        let r := takeConverts (fun p => sc p == "D") amount pf
        (pd ++ r.1, r.2)
    else (pd, pf)
  else (pd, pf)

/-- The three fill-gaps passes in source order. -/
def fillGaps (target_f target_d : Nat) (pd pf : List Player) :
    List Player × List Player :=
  let s1 := criticalDefenseFill pd pf
  let s2 := forwardFill target_f s1.1 s1.2
  defenseFill target_f target_d s2.1 s2.2

/-- C6: the forward-fill pass never draws the defense pool below
`min` of its previous size and the critical floor; moreover with no defense
surplus the pass moves nobody at all. -/
theorem forwardFill_floor :
    ∀ (target_f : Nat) (pd pf : List Player),
      min pd.length MIN_D_CRITICAL ≤ (forwardFill target_f pd pf).1.length ∧
      (pd.length ≤ MIN_D_CRITICAL → forwardFill target_f pd pf = (pd, pf)) := by
  intro target_f pd pf
  have hle := takeConverts_length_le (fun p => sc p == "F")
    (min (target_f - pf.length) (pd.length - 6)) pd
  have hsum := takeConverts_length_sum (fun p => sc p == "F")
    (min (target_f - pf.length) (pd.length - 6)) pd
  simp only [forwardFill, MIN_D_CRITICAL]
  split
  · split
    · split
      · exact ⟨by dsimp only; omega, fun h => absurd h (by omega)⟩
      · exact ⟨by dsimp only; omega, fun h => absurd h (by omega)⟩
    · exact ⟨by dsimp only; omega, fun _ => rfl⟩
  · exact ⟨by dsimp only; omega, fun _ => rfl⟩

/-- The pool ordering invariant: primary key `Status_Rank` ascending
(REGULAR = 0 before SPARE = 1), secondary key `Score` descending
(lines 259-260 and 347-348). -/
def poolLE (p q : Player) : Prop :=
  statusRank p < statusRank q ∨ (statusRank p = statusRank q ∧ q.score ≤ p.score)

instance decPoolLE : DecidableRel poolLE := fun p q =>
  inferInstanceAs (Decidable (statusRank p < statusRank q ∨
    (statusRank p = statusRank q ∧ q.score ≤ p.score)))

instance totalPoolLE : IsTotal Player poolLE :=
  ⟨by intro a b; unfold poolLE; omega⟩

instance transPoolLE : IsTrans Player poolLE :=
  ⟨by intro a b c; unfold poolLE; omega⟩

/-- `sort_values(by=['Status_Rank', 'Score'], ascending=[True, False])`:
a sort realising the pool ordering invariant. -/
def sortPool (l : List Player) : List Player := List.insertionSort poolLE l

/-- A first-choice defenseman with a low score. -/
def dana : Player :=
  { name := "Dana", availability := "Y", firstChoice := "D",
    secondChoice := "", score := 1, regSpare := "R", email := "" }

/-- A high-scoring forward whose second choice is defense. -/
def frank : Player :=
  { name := "Frank", availability := "Y", firstChoice := "F",
    secondChoice := "D", score := 9, regSpare := "R", email := "" }

/-- C8 counterexample: the claim that the ordering invariant is
re-established after every pool mutation fails already at the first
conversion pass.  Starting from the sorted pools `[dana]` (defense) and
`[frank]` (forward), the critical-defense pass appends the converted
high-scorer at the tail, and the resulting defense pool `[dana, frank]`
violates the score-descending invariant; no re-sort happens until the
single pre-draft sort. -/
theorem conversion_leaves_pool_unsorted :
    ¬ List.Sorted poolLE (criticalDefenseFill [dana] [frank]).1 := by
  decide

/-- C8 amended: the ordering invariant is established by the one pre-draft
re-sort: `sortPool` always produces a pool sorted by the invariant and is a
permutation of its input, but conversion and restore mutations in between
merely append at the tail. -/
theorem sortPool_establishes_invariant :
    ∀ l : List Player, List.Sorted poolLE (sortPool l) ∧ (sortPool l).Perm l :=
  fun l => ⟨List.sorted_insertionSort poolLE l, List.perm_insertionSort poolLE l⟩

/-! Birthday matching (`get_birthday_message`, lines 56-112).  Timestamps in
the source carry a time of day, but birthday cells parse to midnight and the
scan window runs from Monday 00:00 to Sunday 23:59:59.999999, so membership
in the window is determined by the calendar day alone; dates are therefore
modelled as year-month-day triples ordered lexicographically. -/

structure SimpleDate where
  year : Nat
  month : Nat
  day : Nat
deriving DecidableEq

/-- Gregorian leap-year rule, as implemented by Python's `datetime`. -/
def isLeap (y : Nat) : Bool :=
  y % 4 == 0 && (y % 100 != 0 || y % 400 == 0)

def daysInMonth (y m : Nat) : Nat :=
  if m == 2 then (if isLeap y then 29 else 28)
  else if m == 4 || m == 6 || m == 9 || m == 11 then 30
  else 31

/-- `bday.replace(year=y)`: `none` models the `ValueError` raised when the
day does not exist in the target year (only possible for Feb 29). -/
def replaceYear (d : SimpleDate) (y : Nat) : Option SimpleDate :=
  if d.day ≤ daysInMonth y d.month then some ⟨y, d.month, d.day⟩ else none

/-- Candidate date for a checked year (lines 84-89): `replace(year=y)`,
falling back to March 1 of `y` when that raises. -/
def candidateForYear (d : SimpleDate) (y : Nat) : SimpleDate :=
  match replaceYear d y with
  | some c => c
  | none => ⟨y, 3, 1⟩

def dateLE (a b : SimpleDate) : Bool :=
  decide (a.year < b.year ∨ (a.year = b.year ∧
    (a.month < b.month ∨ (a.month = b.month ∧ a.day ≤ b.day))))

/-- Day-level membership in the Monday-to-Sunday scan window `[ws, we]`. -/
def inWindow (ws we c : SimpleDate) : Bool := dateLE ws c && dateLE c we

/-- Years checked for a birthday match (line 82): current, previous, next. -/
def yearsToCheck (todayYear : Nat) : List Nat :=
  [todayYear, todayYear - 1, todayYear + 1]

/-- A player is a celebrant iff some checked year's candidate date lies in
the scan window (lines 84-93). -/
def isCelebrant (bday : SimpleDate) (todayYear : Nat) (ws we : SimpleDate) : Bool :=
  (yearsToCheck todayYear).any (fun y => inWindow ws we (candidateForYear bday y))

/-- C9: for a recorded birthday of February 29, week-matching against
non-leap checked years treats the birthday as falling on March 1: the player
is a celebrant exactly when March 1 of some checked year lies inside the
Monday-to-Sunday window. -/
theorem feb29_matches_as_mar1 (b : SimpleDate) (y0 : Nat) (ws we : SimpleDate)
    (hm : b.month = 2) (hd : b.day = 29)
    (hnl : ∀ y ∈ yearsToCheck y0, isLeap y = false) :
    isCelebrant b y0 ws we = true ↔
      ∃ y ∈ yearsToCheck y0, inWindow ws we ⟨y, 3, 1⟩ = true := by
  have hc : ∀ y ∈ yearsToCheck y0, candidateForYear b y = ⟨y, 3, 1⟩ := by
    intro y hy
    have hl := hnl y hy
    simp [candidateForYear, replaceYear, daysInMonth, hm, hd, hl]
  rw [isCelebrant, List.any_eq_true]
  constructor
  · rintro ⟨y, hy, hw⟩
    exact ⟨y, hy, by rwa [hc y hy] at hw⟩
  · rintro ⟨y, hy, hw⟩
    exact ⟨y, hy, by rwa [hc y hy]⟩

/-- C9 witness: a Feb 29, 1996 birthday checked in 2022 (all three checked
years non-leap) against the week of Feb 28 - Mar 6, 2022. -/
theorem feb29_matches_as_mar1_witness :
    (∀ y ∈ yearsToCheck 2022, isLeap y = false) ∧
      (isCelebrant ⟨1996, 2, 29⟩ 2022 ⟨2022, 2, 28⟩ ⟨2022, 3, 6⟩ = true ↔
        ∃ y ∈ yearsToCheck 2022,
          inWindow ⟨2022, 2, 28⟩ ⟨2022, 3, 6⟩ ⟨y, 3, 1⟩ = true) :=
  ⟨by decide,
   feb29_matches_as_mar1 ⟨1996, 2, 29⟩ 2022 ⟨2022, 2, 28⟩ ⟨2022, 3, 6⟩
     rfl rfl (by decide)⟩

/-- Name normalisation used by the rivalry matcher:
`str(name).lower().strip()` (lines 305-306, 312). -/
def normName (s : String) : String := trimStr (lowerStr s)

/-- `extract_player`'s per-pool body (lines 306-311 and 312-317): find the
rows matching the normalised key; if any, return the first with the pool's
`Position` tag and drop every matching row from the pool. -/
def extractFrom (key : String) (tag : String) (pool : List Player) :
    Option Player × List Player :=
  match pool.filter (fun p => normName p.name == key) with
  | [] => (none, pool)
  | r :: _ =>
    (some { r with position := some tag },
     pool.filter (fun p => !(normName p.name == key)))

/-- `extract_player` (lines 304-318): search the defense pool first (tag D),
then the forward pool (tag F). -/
def extract_player (nm : String) (pd pf : List Player) :
    Option Player × List Player × List Player :=
  let key := normName nm
  match extractFrom key "D" pd with
  | (some r, pd2) => (some r, pd2, pf)
  | (none, _) =>
    match extractFrom key "F" pf with
    | (some r, pf2) => (some r, pd, pf2)
    | (none, _) => (none, pd, pf)

/-- Restore of a partially matched extraction (lines 339-344): the removed
row, still carrying its `Position` tag, is appended back to the pool the tag
names. -/
def restoreOne (r : Option Player) (pd pf : List Player) :
    List Player × List Player :=
  match r with
  | none => (pd, pf)
  | some p =>
    if p.position == some "D" then (pd ++ [p], pf) else (pd, pf ++ [p])

/-- State threaded through the rivalry loop of stage 7. -/
structure RivalState where
  poolD : List Player
  poolF : List Player
  preA : List Player
  preB : List Player
  notes : List String
  pairIndex : Nat
deriving DecidableEq

/-- `sorted([p1, p2], key=score, reverse=True)` (line 327): higher scorer
first, stable on ties (`p1` stays first). -/
def pairOrder (p1 p2 : Player) : Player × Player :=
  if p1.score < p2.score then (p2, p1) else (p1, p2)

/-- One iteration of the rivalry loop (lines 322-344). -/
def rivalStep (st : RivalState) (pr : String × String) : RivalState :=
  let e1 := extract_player pr.1 st.poolD st.poolF
  let e2 := extract_player pr.2 e1.2.1 e1.2.2
  match e1.1, e2.1 with
  | some p1, some p2 =>
    let hl := pairOrder p1 p2
    if st.pairIndex % 2 == 0 then
      { poolD := e2.2.1, poolF := e2.2.2,
        preA := st.preA ++ [hl.1], preB := st.preB ++ [hl.2],
        notes := st.notes ++ ["Separated " ++ pr.1 ++ " & " ++ pr.2 ++ ": " ++
          hl.1.name ++ " -> Red, " ++ hl.2.name ++ " -> White"],
        pairIndex := st.pairIndex + 1 }
    else
      { poolD := e2.2.1, poolF := e2.2.2,
        preA := st.preA ++ [hl.2], preB := st.preB ++ [hl.1],
        notes := st.notes ++ ["Separated " ++ pr.1 ++ " & " ++ pr.2 ++ ": " ++
          hl.1.name ++ " -> White, " ++ hl.2.name ++ " -> Red"],
        pairIndex := st.pairIndex + 1 }
  | r1, r2 =>
    let s1 := restoreOne r1 e2.2.1 e2.2.2
    let s2 := restoreOne r2 s1.1 s1.2
    { st with poolD := s2.1, poolF := s2.2 }

/-- The configured rival pairs (line 320). -/
def rival_pairs : List (String × String) :=
  [("Mike Tonietto", "Jamie Devin"), ("Mark Hicks", "Gary Fera")]

/-- Display ordering of a finished roster: `Position` ascending then
`Full Name` ascending (lines 383-384). -/
def displayLE (p q : Player) : Prop :=
  p.position.getD "" < q.position.getD "" ∨
    (p.position.getD "" = q.position.getD "" ∧ p.name ≤ q.name)

instance decDisplayLE : DecidableRel displayLE := fun p q =>
  inferInstanceAs (Decidable (p.position.getD "" < q.position.getD "" ∨
    (p.position.getD "" = q.position.getD "" ∧ p.name ≤ q.name)))

def sortDisplay (l : List Player) : List Player := List.insertionSort displayLE l

/-- Output of the draft-and-compose stages (8 and 9). -/
structure DraftResult where
  teamA : List Player
  teamB : List Player
  cutsD : List Player
  cutsF : List Player
deriving DecidableEq

def setPos (tag : String) (p : Player) : Player := { p with position := some tag }

/-- Count of pinned players carrying a given position tag (lines 350-351). -/
def pinnedCount (tag : String) (st : RivalState) : Nat :=
  ((st.preA ++ st.preB).filter (fun p => p.position == some tag)).length

/-- `selected_d` (lines 356, 362): head of the re-sorted defense pool up to
the remaining defense need, tagged D.  `max(0, ...)` is Nat subtraction. -/
def selectedD (target_d : Nat) (st : RivalState) : List Player :=
  ((sortPool st.poolD).take (target_d - pinnedCount "D" st)).map (setPos "D")

/-- `selected_f` (lines 357, 363). -/
def selectedF (target_f : Nat) (st : RivalState) : List Player :=
  ((sortPool st.poolF).take (target_f - pinnedCount "F" st)).map (setPos "F")

/-- `cuts_d` (line 359): the defense pool past the selection point. -/
def cutsDof (target_d : Nat) (st : RivalState) : List Player :=
  (sortPool st.poolD).drop (target_d - pinnedCount "D" st)

/-- `cuts_f` (line 360). -/
def cutsFof (target_f : Nat) (st : RivalState) : List Player :=
  (sortPool st.poolF).drop (target_f - pinnedCount "F" st)

/-- Stages 8 and 9 (lines 347-384): re-sort both pools, count pinned players
per position, head/tail each pool into selections and cuts, tag the
selections, snake-draft them, and assemble each team from its pinned list
plus its defense and forward blocks, display-sorted. -/
def composeTeams (target_f target_d : Nat) (st : RivalState) : DraftResult :=
  { teamA := sortDisplay (st.preA ++ (snake_draft (selectedD target_d st)).1 ++
      (snake_draft (selectedF target_f st)).1),
    teamB := sortDisplay (st.preB ++ (snake_draft (selectedD target_d st)).2 ++
      (snake_draft (selectedF target_f st)).2),
    cutsD := cutsDof target_d st,
    cutsF := cutsFof target_f st }

/-- The rows marked available (line 220). -/
def availableOf (df : List Player) : List Player := df.filter isAvailable

/-- Stage 5 (lines 258-263): rank-sort the available rows and split them by
cleaned first-choice position into the defense and forward pools. -/
def initialPools (df : List Player) : List Player × List Player :=
  ((sortPool (availableOf df)).filter (fun p => fc p == "D"),
   (sortPool (availableOf df)).filter (fun p => fc p == "F"))

/-- Pools after the three fill-gaps passes of stage 6. -/
def postFill (df : List Player) : List Player × List Player :=
  fillGaps (computeTargets (availableOf df).length).1
    (computeTargets (availableOf df).length).2
    (initialPools df).1 (initialPools df).2

/-- State after the rivalry loop of stage 7. -/
def postRivals (df : List Player) : RivalState :=
  rival_pairs.foldl rivalStep ⟨(postFill df).1, (postFill df).2, [], [], [], 0⟩

/-- The whole balancing pipeline on one table of rows, from the availability
filter to the finished rosters.  The random shuffle of line 258 only permutes
`df` before the rank sort; quantifying over `df` covers every outcome. -/
def pipeline (df : List Player) : DraftResult :=
  composeTeams (computeTargets (availableOf df).length).1
    (computeTargets (availableOf df).length).2 (postRivals df)

theorem filter_key_singleton (l : List Player) (key : String)
    (h : (l.map (fun p => normName p.name)).Nodup)
    (r0 : Player) (t : List Player)
    (hf : l.filter (fun p => normName p.name == key) = r0 :: t) : t = [] := by
  cases t with
  | nil => rfl
  | cons x t' =>
    exfalso
    have hsubl : (r0 :: x :: t').Sublist l := hf ▸ List.filter_sublist l
    have hnd : ((r0 :: x :: t').map (fun p => normName p.name)).Nodup :=
      List.Nodup.sublist (hsubl.map _) h
    have e0 : normName r0.name = key := by
      have hm : r0 ∈ l.filter (fun p => normName p.name == key) := by
        rw [hf]; exact List.mem_cons_self _ _
      simpa using List.of_mem_filter hm
    have ex : normName x.name = key := by
      have hm : x ∈ l.filter (fun p => normName p.name == key) := by
        rw [hf]; exact List.mem_cons_of_mem _ (List.mem_cons_self _ _)
      simpa using List.of_mem_filter hm
    simp only [List.map_cons, List.nodup_cons] at hnd
    exact hnd.1 (by rw [e0, ← ex]; exact List.mem_cons_self _ _)

theorem extractFrom_none (key tag : String) (pool : List Player)
    (h : (extractFrom key tag pool).1 = none) :
    extractFrom key tag pool = (none, pool) := by
  unfold extractFrom at h ⊢
  cases hf : pool.filter (fun p => normName p.name == key) with
  | nil => rfl
  | cons r0 t =>
    rw [hf] at h
    simp at h

theorem extractFrom_some (key tag : String) (pool pool2 : List Player) (r : Player)
    (h : extractFrom key tag pool = (some r, pool2)) :
    (∃ q ∈ pool, r = { q with position := some tag }) ∧
      r.position = some tag ∧
      pool2.Sublist pool ∧
      ((pool.map (fun p => normName p.name)).Nodup →
        ([r.name] ++ pool2.map Player.name).Perm (pool.map Player.name)) := by
  unfold extractFrom at h
  cases hf : pool.filter (fun p => normName p.name == key) with
  | nil => rw [hf] at h; simp at h
  | cons r0 t =>
    rw [hf] at h
    rw [Prod.mk.injEq] at h
    obtain ⟨h1, h2⟩ := h
    have hr : r = { r0 with position := some tag } := by
      injection h1 with h1
      exact h1.symm
    have hmem : r0 ∈ pool :=
      List.mem_of_mem_filter (hf ▸ List.mem_cons_self r0 t)
    have hsub : pool2.Sublist pool := h2 ▸ List.filter_sublist pool
    refine ⟨⟨r0, hmem, hr⟩, by rw [hr], hsub, ?_⟩
    intro hnod
    have ht : t = [] := filter_key_singleton pool key hnod r0 t hf
    have hperm := List.filter_append_perm (fun p => normName p.name == key) pool
    rw [hf, ht] at hperm
    have hperm2 : (r0 :: pool2).Perm pool := by
      rw [← h2]
      simpa using hperm
    have := hperm2.map Player.name
    simpa [hr] using this

theorem extract_player_none (nm : String) (pd pf : List Player)
    (h : (extract_player nm pd pf).1 = none) :
    extract_player nm pd pf = (none, pd, pf) := by
  rcases h1 : extractFrom (normName nm) "D" pd with ⟨o1, l1⟩
  rcases h2 : extractFrom (normName nm) "F" pf with ⟨o2, l2⟩
  cases o1 with
  | some r1 => simp [extract_player, h1] at h
  | none =>
    cases o2 with
    | some r2 => simp [extract_player, h1, h2] at h
    | none => simp [extract_player, h1, h2]

theorem extract_player_some (nm : String) (pd pf pd2 pf2 : List Player) (r : Player)
    (h : extract_player nm pd pf = (some r, pd2, pf2)) :
    (extractFrom (normName nm) "D" pd = (some r, pd2) ∧ pf2 = pf ∧
      r.position = some "D") ∨
    ((extractFrom (normName nm) "D" pd).1 = none ∧ pd2 = pd ∧
      extractFrom (normName nm) "F" pf = (some r, pf2) ∧ r.position = some "F") := by
  rcases h1 : extractFrom (normName nm) "D" pd with ⟨o1, l1⟩
  rcases h2 : extractFrom (normName nm) "F" pf with ⟨o2, l2⟩
  cases o1 with
  | some r1 =>
    simp only [extract_player, h1, Prod.mk.injEq, Option.some.injEq] at h
    obtain ⟨ha, hb, hc⟩ := h
    left
    have he : extractFrom (normName nm) "D" pd = (some r, pd2) := by
      rw [h1, hb, ha]
    exact ⟨by rw [hb, ha], hc.symm,
      (extractFrom_some (normName nm) "D" pd pd2 r he).2.1⟩
  | none =>
    cases o2 with
    | some r2 =>
      simp only [extract_player, h1, h2, Prod.mk.injEq, Option.some.injEq] at h
      obtain ⟨ha, hb, hc⟩ := h
      right
      have he : extractFrom (normName nm) "F" pf = (some r, pf2) := by
        rw [h2, hc, ha]
      exact ⟨rfl, hb.symm, by rw [hc, ha],
        (extractFrom_some (normName nm) "F" pf pf2 r he).2.1⟩
    | none =>
      simp [extract_player, h1, h2] at h

theorem pairOrder_score (p1 p2 : Player) :
    (pairOrder p1 p2).2.score ≤ (pairOrder p1 p2).1.score := by
  unfold pairOrder
  split <;> dsimp only <;> omega

theorem mem_teamA_of_mem_preA (tf td : Nat) (st : RivalState) (p : Player)
    (h : p ∈ st.preA) : p ∈ (composeTeams tf td st).teamA := by
  simp only [composeTeams, sortDisplay]
  refine (List.perm_insertionSort displayLE _).mem_iff.mpr ?_
  simp [List.mem_append, h]

theorem mem_teamB_of_mem_preB (tf td : Nat) (st : RivalState) (p : Player)
    (h : p ∈ st.preB) : p ∈ (composeTeams tf td st).teamB := by
  simp only [composeTeams, sortDisplay]
  refine (List.perm_insertionSort displayLE _).mem_iff.mpr ?_
  simp [List.mem_append, h]

/-- A first-choice forward with second choice D, bearing a configured rival
name; the critical-defense pass can convert him into the defense pool. -/
def mike : Player :=
  { name := "Mike Tonietto", availability := "Y", firstChoice := "F",
    secondChoice := "D", score := 9, regSpare := "R", email := "" }

/-- The other member of the first configured rival pair. -/
def jamie : Player :=
  { name := "Jamie Devin", availability := "Y", firstChoice := "F",
    secondChoice := "", score := 5, regSpare := "R", email := "" }

/-- C7 counterexample: a pinned player's `Position` tag is the pool he was
extracted from, not his first-choice position.  Mike (first choice F, second
choice D) is converted into the defense pool by the critical-defense pass;
when the rivalry separator then pins the pair, Mike is pinned with tag D
although his first choice is F.  This refutes the claim that the tag always
equals the first-choice position. -/
theorem pinned_tag_not_first_choice :
    (rivalStep
        ⟨(criticalDefenseFill [dana] [mike, jamie]).1,
         (criticalDefenseFill [dana] [mike, jamie]).2, [], [], [], 0⟩
        ("Mike Tonietto", "Jamie Devin")).preA =
      [{ mike with position := some "D" }] ∧
    fc mike = "F" := by
  decide

/-- C7 amended: every player pinned by the rivalry separator receives the
position tag of the pool he was extracted from (D for the defense pool, F
for the forward pool) at pinning time, and the pinned record, tag included,
reaches that team's final roster unchanged.  The tag equals the first-choice
position only when no conversion moved the player across pools. -/
theorem pinned_tag_from_extraction_pool :
    (∀ (nm : String) (pd pf pd2 pf2 : List Player) (r : Player),
        extract_player nm pd pf = (some r, pd2, pf2) →
        (∃ q ∈ pd, r = { q with position := some "D" }) ∨
        (∃ q ∈ pf, r = { q with position := some "F" })) ∧
    (∀ (tf td : Nat) (st : RivalState) (p : Player),
        (p ∈ st.preA → p ∈ (composeTeams tf td st).teamA) ∧
        (p ∈ st.preB → p ∈ (composeTeams tf td st).teamB)) := by
  constructor
  · intro nm pd pf pd2 pf2 r h
    rcases extract_player_some nm pd pf pd2 pf2 r h with ⟨hd, _, _⟩ | ⟨_, _, hf, _⟩
    · exact Or.inl (extractFrom_some _ _ _ _ _ hd).1
    · exact Or.inr (extractFrom_some _ _ _ _ _ hf).1
  · intro tf td st p
    exact ⟨mem_teamA_of_mem_preA tf td st p, mem_teamB_of_mem_preB tf td st p⟩

/-- C7 amended witness: extracting Dana from the defense pool pins her with
tag D taken from that pool. -/
theorem pinned_tag_from_extraction_pool_witness :
    (∃ q ∈ [dana], ({ dana with position := some "D" } : Player) =
      { q with position := some "D" }) ∨
    (∃ q ∈ ([] : List Player), ({ dana with position := some "D" } : Player) =
      { q with position := some "F" }) :=
  pinned_tag_from_extraction_pool.1 "Dana" [dana] [] [] []
    { dana with position := some "D" } (by decide)

/-- C4: when both members of a rival pair are found, the pair is ordered by
score descending, one member is appended to each team's pinned list (never
the same team), a separation note is recorded, and the separated-pair index
is incremented; the higher scorer goes to team A exactly when the
separated-pair index is even, and both players reach opposite final teams. -/
theorem rival_pair_separation (st : RivalState) (pr : String × String)
    (p1 p2 : Player) (pd1 pf1 pd2 pf2 : List Player)
    (h1 : extract_player pr.1 st.poolD st.poolF = (some p1, pd1, pf1))
    (h2 : extract_player pr.2 pd1 pf1 = (some p2, pd2, pf2)) :
    (pairOrder p1 p2).2.score ≤ (pairOrder p1 p2).1.score ∧
    (rivalStep st pr).pairIndex = st.pairIndex + 1 ∧
    (rivalStep st pr).notes.length = st.notes.length + 1 ∧
    (st.pairIndex % 2 = 0 →
      (rivalStep st pr).preA = st.preA ++ [(pairOrder p1 p2).1] ∧
      (rivalStep st pr).preB = st.preB ++ [(pairOrder p1 p2).2]) ∧
    (st.pairIndex % 2 = 1 →
      (rivalStep st pr).preA = st.preA ++ [(pairOrder p1 p2).2] ∧
      (rivalStep st pr).preB = st.preB ++ [(pairOrder p1 p2).1]) ∧
    (∀ tf td : Nat,
      (st.pairIndex % 2 = 0 →
        (pairOrder p1 p2).1 ∈ (composeTeams tf td (rivalStep st pr)).teamA ∧
        (pairOrder p1 p2).2 ∈ (composeTeams tf td (rivalStep st pr)).teamB) ∧
      (st.pairIndex % 2 = 1 →
        (pairOrder p1 p2).2 ∈ (composeTeams tf td (rivalStep st pr)).teamA ∧
        (pairOrder p1 p2).1 ∈ (composeTeams tf td (rivalStep st pr)).teamB)) := by
  have hstep : rivalStep st pr =
      if st.pairIndex % 2 == 0 then
        { poolD := pd2, poolF := pf2,
          preA := st.preA ++ [(pairOrder p1 p2).1],
          preB := st.preB ++ [(pairOrder p1 p2).2],
          notes := st.notes ++ ["Separated " ++ pr.1 ++ " & " ++ pr.2 ++ ": " ++
            (pairOrder p1 p2).1.name ++ " -> Red, " ++
            (pairOrder p1 p2).2.name ++ " -> White"],
          pairIndex := st.pairIndex + 1 }
      else
        { poolD := pd2, poolF := pf2,
          preA := st.preA ++ [(pairOrder p1 p2).2],
          preB := st.preB ++ [(pairOrder p1 p2).1],
          notes := st.notes ++ ["Separated " ++ pr.1 ++ " & " ++ pr.2 ++ ": " ++
            (pairOrder p1 p2).1.name ++ " -> White, " ++
            (pairOrder p1 p2).2.name ++ " -> Red"],
          pairIndex := st.pairIndex + 1 } := by
    simp only [rivalStep, h1, h2]
  rcases Nat.mod_two_eq_zero_or_one st.pairIndex with hp | hp
  · rw [hstep]
    simp only [hp]
    refine ⟨pairOrder_score p1 p2, by simp, by simp, fun _ => ⟨by simp, by simp⟩,
      fun hcon => absurd hp (by omega), fun tf td => ⟨fun _ => ?_, fun hcon => absurd hp (by omega)⟩⟩
    constructor
    · exact mem_teamA_of_mem_preA tf td _ _ (by simp)
    · exact mem_teamB_of_mem_preB tf td _ _ (by simp)
  · rw [hstep]
    simp only [hp]
    refine ⟨pairOrder_score p1 p2, by simp, by simp,
      fun hcon => absurd hp (by omega), fun _ => ⟨by simp, by simp⟩,
      fun tf td => ⟨fun hcon => absurd hp (by omega), fun _ => ?_⟩⟩
    constructor
    · exact mem_teamA_of_mem_preA tf td _ _ (by simp)
    · exact mem_teamB_of_mem_preB tf td _ _ (by simp)

/-- C4 witness: pools holding exactly the first configured rival pair, at
separated-pair index 0; the higher scorer Mike is pinned to team A. -/
theorem rival_pair_separation_witness :
    extract_player "Mike Tonietto" [mike] [jamie] =
      (some { mike with position := some "D" }, [], [jamie]) ∧
    extract_player "Jamie Devin" [] [jamie] =
      (some { jamie with position := some "F" }, [], []) ∧
    (pairOrder { mike with position := some "D" }
        { jamie with position := some "F" }).2.score ≤
      (pairOrder { mike with position := some "D" }
        { jamie with position := some "F" }).1.score ∧
    (rivalStep ⟨[mike], [jamie], [], [], [], 0⟩
        ("Mike Tonietto", "Jamie Devin")).pairIndex = 0 + 1 := by
  refine ⟨by decide, by decide, ?_, ?_⟩
  · exact (rival_pair_separation ⟨[mike], [jamie], [], [], [], 0⟩
      ("Mike Tonietto", "Jamie Devin") { mike with position := some "D" }
      { jamie with position := some "F" } [] [jamie] [] []
      (by decide) (by decide)).1
  · exact (rival_pair_separation ⟨[mike], [jamie], [], [], [], 0⟩
      ("Mike Tonietto", "Jamie Devin") { mike with position := some "D" }
      { jamie with position := some "F" } [] [jamie] [] []
      (by decide) (by decide)).2.1


theorem restoreOne_none (pd pf : List Player) :
    restoreOne none pd pf = (pd, pf) := rfl

theorem restore_after_extract (nm : String) (pd pf pd2 pf2 : List Player)
    (r : Player)
    (hnodD : (pd.map (fun p => normName p.name)).Nodup)
    (hnodF : (pf.map (fun p => normName p.name)).Nodup)
    (h : extract_player nm pd pf = (some r, pd2, pf2)) :
    ((restoreOne (some r) pd2 pf2).1.map Player.name).Perm (pd.map Player.name) ∧
    ((restoreOne (some r) pd2 pf2).2.map Player.name).Perm (pf.map Player.name) := by
  rcases extract_player_some nm pd pf pd2 pf2 r h with
    ⟨hd, hpf, hpos⟩ | ⟨_, hpd, hf, hpos⟩
  · have hperm := (extractFrom_some _ _ _ _ _ hd).2.2.2 hnodD
    have hres : restoreOne (some r) pd2 pf2 = (pd2 ++ [r], pf2) := by
      simp [restoreOne, hpos]
    rw [hres]
    subst hpf
    refine ⟨?_, List.Perm.refl _⟩
    have hmap : (pd2 ++ [r]).map Player.name = pd2.map Player.name ++ [r.name] := by
      simp
    rw [hmap]
    exact (List.perm_append_singleton _ _).trans hperm
  · have hperm := (extractFrom_some _ _ _ _ _ hf).2.2.2 hnodF
    have hres : restoreOne (some r) pd2 pf2 = (pd2, pf2 ++ [r]) := by
      simp [restoreOne, hpos]
    rw [hres]
    subst hpd
    refine ⟨List.Perm.refl _, ?_⟩
    have hmap : (pf2 ++ [r]).map Player.name = pf2.map Player.name ++ [r.name] := by
      simp
    rw [hmap]
    exact (List.perm_append_singleton _ _).trans hperm

/-- Behaviour of a rivalry step on a partial match: pools preserved in name
membership, nothing pinned, no note, index untouched. -/
theorem rivalStep_partial (st : RivalState) (pr : String × String)
    (hnod : ((st.poolD ++ st.poolF).map (fun p => normName p.name)).Nodup)
    (hnb : (extract_player pr.1 st.poolD st.poolF).1 = none ∨
        (extract_player pr.2 (extract_player pr.1 st.poolD st.poolF).2.1
            (extract_player pr.1 st.poolD st.poolF).2.2).1 = none) :
    ((rivalStep st pr).poolD.map Player.name).Perm (st.poolD.map Player.name) ∧
    ((rivalStep st pr).poolF.map Player.name).Perm (st.poolF.map Player.name) ∧
    (rivalStep st pr).preA = st.preA ∧
    (rivalStep st pr).preB = st.preB ∧
    (rivalStep st pr).notes = st.notes ∧
    (rivalStep st pr).pairIndex = st.pairIndex := by
  have hnodD : (st.poolD.map (fun p => normName p.name)).Nodup := by
    rw [List.map_append] at hnod
    exact hnod.of_append_left
  have hnodF : (st.poolF.map (fun p => normName p.name)).Nodup := by
    rw [List.map_append] at hnod
    exact hnod.of_append_right
  rcases he1 : extract_player pr.1 st.poolD st.poolF with ⟨o1, pd1, pf1⟩
  cases o1 with
  | none =>
    have heq := extract_player_none pr.1 st.poolD st.poolF (by rw [he1])
    rw [he1] at heq
    obtain ⟨hpd1, hpf1⟩ : pd1 = st.poolD ∧ pf1 = st.poolF := by
      simpa [Prod.ext_iff] using heq
    subst hpd1
    subst hpf1
    rcases he2 : extract_player pr.2 st.poolD st.poolF with ⟨o2, pd2, pf2⟩
    cases o2 with
    | none =>
      have heq2 := extract_player_none pr.2 st.poolD st.poolF (by rw [he2])
      rw [he2] at heq2
      obtain ⟨hpd2, hpf2⟩ : pd2 = st.poolD ∧ pf2 = st.poolF := by
        simpa [Prod.ext_iff] using heq2
      subst hpd2
      subst hpf2
      refine ⟨?_, ?_, ?_, ?_, ?_, ?_⟩ <;>
        simp [rivalStep, he1, he2, restoreOne_none]
    | some p2 =>
      have hres := restore_after_extract pr.2 st.poolD st.poolF pd2 pf2 p2
        hnodD hnodF (by rw [he2])
      have hstep : rivalStep st pr =
          { st with poolD := (restoreOne (some p2) pd2 pf2).1,
                    poolF := (restoreOne (some p2) pd2 pf2).2 } := by
        simp [rivalStep, he1, he2, restoreOne_none]
      rw [hstep]
      exact ⟨hres.1, hres.2, rfl, rfl, rfl, rfl⟩
  | some p1 =>
    have hnb2 : (extract_player pr.2 pd1 pf1).1 = none := by
      rcases hnb with hnb | hnb
      · rw [he1] at hnb
        simp at hnb
      · rw [he1] at hnb
        exact hnb
    rcases he2 : extract_player pr.2 pd1 pf1 with ⟨o2, pd2, pf2⟩
    have ho2 : o2 = none := by
      rw [he2] at hnb2
      exact hnb2
    subst ho2
    have heq2 := extract_player_none pr.2 pd1 pf1 (by rw [he2])
    rw [he2] at heq2
    obtain ⟨hpd2, hpf2⟩ : pd2 = pd1 ∧ pf2 = pf1 := by
      simpa [Prod.ext_iff] using heq2
    subst hpd2
    subst hpf2
    have hres := restore_after_extract pr.1 st.poolD st.poolF pd2 pf2 p1
      hnodD hnodF (by rw [he1])
    have hstep : rivalStep st pr =
        { st with poolD := (restoreOne (some p1) pd2 pf2).1,
                  poolF := (restoreOne (some p1) pd2 pf2).2 } := by
      simp [rivalStep, he1, he2, restoreOne_none]
    rw [hstep]
    exact ⟨hres.1, hres.2, rfl, rfl, rfl, rfl⟩

/-- A roster row bearing a configured rival's full name, first choice D. -/
def mikeRowOne : Player :=
  { name := "Mike Tonietto", availability := "Y", firstChoice := "D",
    secondChoice := "", score := 9, regSpare := "R", email := "" }

/-- A second, distinct roster row with the same full name. -/
def mikeRowTwo : Player :=
  { name := "Mike Tonietto", availability := "Y", firstChoice := "D",
    secondChoice := "", score := 7, regSpare := "R", email := "" }

/-- C5 counterexample: with two rows sharing the rival name Mike Tonietto in
the defense pool and Jamie Devin absent, the extraction drops both matching
rows (`pd_pool.drop(matches_d.index)`, line 310) yet returns only the first,
and the restore re-appends that one row alone; after this partial-match step
the defense pool holds the name once instead of twice, nobody was pinned,
and a player has been silently lost -- the pools are not unchanged in
membership, refuting the claim as stated. -/
theorem partial_match_duplicate_loss :
    extract_player "Mike Tonietto" [mikeRowOne, mikeRowTwo] [] =
      (some { mikeRowOne with position := some "D" }, [], []) ∧
    (extract_player "Jamie Devin" [] []).1 = none ∧
    ([mikeRowOne, mikeRowTwo].map Player.name).count "Mike Tonietto" = 2 ∧
    (((rivalStep ⟨[mikeRowOne, mikeRowTwo], [], [], [], [], 0⟩
        ("Mike Tonietto", "Jamie Devin")).poolD).map Player.name).count
      "Mike Tonietto" = 1 ∧
    (rivalStep ⟨[mikeRowOne, mikeRowTwo], [], [], [], [], 0⟩
        ("Mike Tonietto", "Jamie Devin")).poolF = [] ∧
    (rivalStep ⟨[mikeRowOne, mikeRowTwo], [], [], [], [], 0⟩
        ("Mike Tonietto", "Jamie Devin")).preA = [] ∧
    (rivalStep ⟨[mikeRowOne, mikeRowTwo], [], [], [], [], 0⟩
        ("Mike Tonietto", "Jamie Devin")).preB = [] := by
  decide

/-- C5 amended: when a rival pair is only partially found (one or neither
member located) and the pool rows carry pairwise-distinct normalised names,
the rivalry step leaves both position pools unchanged in name membership --
the extracted player is restored exactly once to the pool he was removed
from (not duplicated, not lost) -- and pins nobody, records no note, and
leaves the separated-pair index untouched.  The distinctness proviso is
forced: with duplicate-named rows, extraction drops every matching row while
the restore re-appends only the first. -/
theorem partial_match_preserves_pools (st : RivalState) (pr : String × String)
    (hnod : ((st.poolD ++ st.poolF).map (fun p => normName p.name)).Nodup)
    (hnb : (extract_player pr.1 st.poolD st.poolF).1 = none ∨
        (extract_player pr.2 (extract_player pr.1 st.poolD st.poolF).2.1
            (extract_player pr.1 st.poolD st.poolF).2.2).1 = none) :
    ((rivalStep st pr).poolD.map Player.name).Perm (st.poolD.map Player.name) ∧
    ((rivalStep st pr).poolF.map Player.name).Perm (st.poolF.map Player.name) ∧
    (rivalStep st pr).preA = st.preA ∧
    (rivalStep st pr).preB = st.preB ∧
    (rivalStep st pr).notes = st.notes ∧
    (rivalStep st pr).pairIndex = st.pairIndex :=
  rivalStep_partial st pr hnod hnb

/-- C5 witness: only Jamie of the first configured pair is present; the step
restores him and changes nothing else. -/
theorem partial_match_preserves_pools_witness :
    ((rivalStep ⟨[dana], [jamie], [], [], [], 0⟩
        ("Mike Tonietto", "Jamie Devin")).poolD.map Player.name).Perm
      ([dana].map Player.name) ∧
    ((rivalStep ⟨[dana], [jamie], [], [], [], 0⟩
        ("Mike Tonietto", "Jamie Devin")).poolF.map Player.name).Perm
      ([jamie].map Player.name) ∧
    (rivalStep ⟨[dana], [jamie], [], [], [], 0⟩
        ("Mike Tonietto", "Jamie Devin")).preA = [] ∧
    (rivalStep ⟨[dana], [jamie], [], [], [], 0⟩
        ("Mike Tonietto", "Jamie Devin")).preB = [] ∧
    (rivalStep ⟨[dana], [jamie], [], [], [], 0⟩
        ("Mike Tonietto", "Jamie Devin")).notes = [] ∧
    (rivalStep ⟨[dana], [jamie], [], [], [], 0⟩
        ("Mike Tonietto", "Jamie Devin")).pairIndex = 0 :=
  partial_match_preserves_pools ⟨[dana], [jamie], [], [], [], 0⟩
    ("Mike Tonietto", "Jamie Devin") (by decide) (Or.inl (by decide))

theorem map_nn (l : List Player) :
    l.map (fun p => normName p.name) = (l.map Player.name).map normName := by
  rw [List.map_map]
  rfl

theorem selectedD_names (td : Nat) (st : RivalState) :
    (selectedD td st).map Player.name =
      ((sortPool st.poolD).take (td - pinnedCount "D" st)).map Player.name := by
  simp only [selectedD]
  rw [List.map_map]
  rfl

theorem selectedF_names (tf : Nat) (st : RivalState) :
    (selectedF tf st).map Player.name =
      ((sortPool st.poolF).take (tf - pinnedCount "F" st)).map Player.name := by
  simp only [selectedF]
  rw [List.map_map]
  rfl

theorem extract_player_sublist (nm : String) (pd pf pd2 pf2 : List Player)
    (o : Option Player) (h : extract_player nm pd pf = (o, pd2, pf2)) :
    pd2.Sublist pd ∧ pf2.Sublist pf := by
  cases o with
  | none =>
    have hn := extract_player_none nm pd pf (by rw [h])
    rw [h] at hn
    obtain ⟨h1, h2⟩ : pd2 = pd ∧ pf2 = pf := by
      simpa [Prod.ext_iff] using hn
    subst h1
    subst h2
    exact ⟨List.Sublist.refl _, List.Sublist.refl _⟩
  | some r =>
    rcases extract_player_some nm pd pf pd2 pf2 r h with
      ⟨hd, hpf, _⟩ | ⟨_, hpd, hf, _⟩
    · subst hpf
      exact ⟨(extractFrom_some _ _ _ _ _ hd).2.2.1, List.Sublist.refl _⟩
    · subst hpd
      exact ⟨List.Sublist.refl _, (extractFrom_some _ _ _ _ _ hf).2.2.1⟩

theorem extract_combined (nm : String) (pd pf pd2 pf2 : List Player) (r : Player)
    (hnodD : (pd.map (fun p => normName p.name)).Nodup)
    (hnodF : (pf.map (fun p => normName p.name)).Nodup)
    (h : extract_player nm pd pf = (some r, pd2, pf2)) :
    ([r.name] ++ (pd2 ++ pf2).map Player.name).Perm ((pd ++ pf).map Player.name) := by
  rcases extract_player_some nm pd pf pd2 pf2 r h with
    ⟨hd, hpf, _⟩ | ⟨_, hpd, hf, _⟩
  · have hperm := (extractFrom_some _ _ _ _ _ hd).2.2.2 hnodD
    subst hpf
    rw [List.perm_iff_count]
    intro a
    have h1 := hperm.count_eq a
    simp only [List.map_append, List.count_append] at h1 ⊢
    omega
  · have hperm := (extractFrom_some _ _ _ _ _ hf).2.2.2 hnodF
    subst hpd
    rw [List.perm_iff_count]
    intro a
    have h1 := hperm.count_eq a
    simp only [List.map_append, List.count_append] at h1 ⊢
    omega

theorem snakeGo_perm {α : Type} (i : Nat) (l : List α) :
    ((snakeGo i l).1 ++ (snakeGo i l).2).Perm l := by
  induction l generalizing i with
  | nil => rfl
  | cons p ps ih =>
    simp only [snakeGo]
    cases h : (i % 4 == 0 || i % 4 == 3) with
    | true => simpa [h] using (ih (i + 1)).cons p
    | false =>
      simp only [h, Bool.false_eq_true, if_false]
      exact List.perm_middle.trans ((ih (i + 1)).cons p)

theorem snake_draft_perm {α : Type} (l : List α) :
    ((snake_draft l).1 ++ (snake_draft l).2).Perm l := snakeGo_perm 0 l

theorem filter_pair_perm {α : Type} (p q : α → Bool) (l : List α)
    (hdisj : ∀ x, p x = true → q x = false) :
    (l.filter p ++ l.filter q).Perm (l.filter (fun x => p x || q x)) := by
  induction l with
  | nil => rfl
  | cons x xs ih =>
    cases hp : p x with
    | true =>
      have hq := hdisj x hp
      simpa [List.filter_cons, hp, hq] using ih.cons x
    | false =>
      cases hq : q x with
      | true =>
        simp only [List.filter_cons, hp, hq, Bool.false_eq_true, if_false,
          if_true, Bool.false_or]
        exact List.perm_middle.trans (ih.cons x)
      | false =>
        simpa [List.filter_cons, hp, hq] using ih

theorem criticalDefenseFill_perm (pd pf : List Player) :
    ((criticalDefenseFill pd pf).1 ++ (criticalDefenseFill pd pf).2).Perm
      (pd ++ pf) := by
  simp only [criticalDefenseFill]
  split
  · split
    · exact List.Perm.refl _
    · rw [List.perm_iff_count]
      intro a
      have h1 := (takeConverts_perm (fun p => sc p == "D")
        (MIN_D_CRITICAL - pd.length) pf).count_eq a
      simp only [List.count_append] at h1 ⊢
      omega
  · exact List.Perm.refl _

theorem forwardFill_perm (tf : Nat) (pd pf : List Player) :
    ((forwardFill tf pd pf).1 ++ (forwardFill tf pd pf).2).Perm (pd ++ pf) := by
  simp only [forwardFill]
  split
  · split
    · split
      · exact List.Perm.refl _
      · rw [List.perm_iff_count]
        intro a
        have h1 := (takeConverts_perm (fun p => sc p == "F")
          (min (tf - pf.length) (pd.length - MIN_D_CRITICAL)) pd).count_eq a
        simp only [List.count_append] at h1 ⊢
        omega
    · exact List.Perm.refl _
  · exact List.Perm.refl _

theorem defenseFill_perm (tf td : Nat) (pd pf : List Player) :
    ((defenseFill tf td pd pf).1 ++ (defenseFill tf td pd pf).2).Perm
      (pd ++ pf) := by
  simp only [defenseFill]
  split
  · split
    · split
      · exact List.Perm.refl _
      · rw [List.perm_iff_count]
        intro a
        have h1 := (takeConverts_perm (fun p => sc p == "D")
          (min (td - pd.length) (pf.length - tf)) pf).count_eq a
        simp only [List.count_append] at h1 ⊢
        omega
    · exact List.Perm.refl _
  · exact List.Perm.refl _

theorem fillGaps_perm (tf td : Nat) (pd pf : List Player) :
    ((fillGaps tf td pd pf).1 ++ (fillGaps tf td pd pf).2).Perm (pd ++ pf) := by
  simp only [fillGaps]
  exact (defenseFill_perm tf td
      (forwardFill tf (criticalDefenseFill pd pf).1 (criticalDefenseFill pd pf).2).1
      (forwardFill tf (criticalDefenseFill pd pf).1 (criticalDefenseFill pd pf).2).2).trans
    ((forwardFill_perm tf (criticalDefenseFill pd pf).1
        (criticalDefenseFill pd pf).2).trans (criticalDefenseFill_perm pd pf))

theorem pairOrder_cases (p1 p2 : Player) :
    ((pairOrder p1 p2).1 = p1 ∧ (pairOrder p1 p2).2 = p2) ∨
      ((pairOrder p1 p2).1 = p2 ∧ (pairOrder p1 p2).2 = p1) := by
  unfold pairOrder
  split
  · exact Or.inr ⟨rfl, rfl⟩
  · exact Or.inl ⟨rfl, rfl⟩

theorem rivalStep_all (st : RivalState) (pr : String × String)
    (h : ((st.poolD ++ st.poolF).map (fun p => normName p.name)).Nodup) :
    (((rivalStep st pr).poolD ++ (rivalStep st pr).poolF ++
        (rivalStep st pr).preA ++ (rivalStep st pr).preB).map Player.name).Perm
      ((st.poolD ++ st.poolF ++ st.preA ++ st.preB).map Player.name) ∧
    (((rivalStep st pr).poolD ++ (rivalStep st pr).poolF).map
        (fun p => normName p.name)).Nodup := by
  have hnodD : (st.poolD.map (fun p => normName p.name)).Nodup := by
    rw [List.map_append] at h
    exact h.of_append_left
  have hnodF : (st.poolF.map (fun p => normName p.name)).Nodup := by
    rw [List.map_append] at h
    exact h.of_append_right
  rcases he1 : extract_player pr.1 st.poolD st.poolF with ⟨o1, pd1, pf1⟩
  rcases he2 : extract_player pr.2 pd1 pf1 with ⟨o2, pd2, pf2⟩
  have hpartial : ∀ _ : (extract_player pr.1 st.poolD st.poolF).1 = none ∨
      (extract_player pr.2 (extract_player pr.1 st.poolD st.poolF).2.1
          (extract_player pr.1 st.poolD st.poolF).2.2).1 = none,
      (((rivalStep st pr).poolD ++ (rivalStep st pr).poolF ++
          (rivalStep st pr).preA ++ (rivalStep st pr).preB).map Player.name).Perm
        ((st.poolD ++ st.poolF ++ st.preA ++ st.preB).map Player.name) ∧
      (((rivalStep st pr).poolD ++ (rivalStep st pr).poolF).map
          (fun p => normName p.name)).Nodup := by
    intro hnb
    have hpart := rivalStep_partial st pr h hnb
    constructor
    · rw [hpart.2.2.1, hpart.2.2.2.1, List.perm_iff_count]
      intro a
      have c1 := hpart.1.count_eq a
      have c2 := hpart.2.1.count_eq a
      simp only [List.map_append, List.count_append] at c1 c2 ⊢
      omega
    · have hD := hpart.1.map normName
      have hF := hpart.2.1.map normName
      rw [List.map_append, map_nn, map_nn]
      rw [List.map_append, map_nn, map_nn] at h
      exact ((hD.append hF).symm).nodup h
  cases o1 with
  | none => exact hpartial (Or.inl (by rw [he1]))
  | some p1 =>
    cases o2 with
    | none =>
      refine hpartial (Or.inr ?_)
      simp only [he1]
      rw [he2]
    | some p2 =>
      have hsub1 := extract_player_sublist pr.1 st.poolD st.poolF pd1 pf1
        (some p1) he1
      have hnodD1 : (pd1.map (fun p => normName p.name)).Nodup :=
        List.Nodup.sublist (hsub1.1.map _) hnodD
      have hnodF1 : (pf1.map (fun p => normName p.name)).Nodup :=
        List.Nodup.sublist (hsub1.2.map _) hnodF
      have hc1 := extract_combined pr.1 st.poolD st.poolF pd1 pf1 p1
        hnodD hnodF he1
      have hc2 := extract_combined pr.2 pd1 pf1 pd2 pf2 p2 hnodD1 hnodF1 he2
      have hsub2 := extract_player_sublist pr.2 pd1 pf1 pd2 pf2 (some p2) he2
      have hD : (rivalStep st pr).poolD = pd2 := by
        rcases Nat.mod_two_eq_zero_or_one st.pairIndex with hp | hp <;>
          simp [rivalStep, he1, he2, hp]
      have hF : (rivalStep st pr).poolF = pf2 := by
        rcases Nat.mod_two_eq_zero_or_one st.pairIndex with hp | hp <;>
          simp [rivalStep, he1, he2, hp]
      constructor
      · rcases Nat.mod_two_eq_zero_or_one st.pairIndex with hp | hp
        · have hA : (rivalStep st pr).preA = st.preA ++ [(pairOrder p1 p2).1] := by
            simp [rivalStep, he1, he2, hp]
          have hB : (rivalStep st pr).preB = st.preB ++ [(pairOrder p1 p2).2] := by
            simp [rivalStep, he1, he2, hp]
          rcases pairOrder_cases p1 p2 with ⟨e1h, e2h⟩ | ⟨e1h, e2h⟩ <;>
            (rw [e1h] at hA
             rw [e2h] at hB
             rw [hD, hF, hA, hB, List.perm_iff_count]
             intro a
             have c1 := hc1.count_eq a
             have c2 := hc2.count_eq a
             simp only [List.map_append, List.count_append, List.map_cons,
               List.map_nil] at c1 c2 ⊢
             omega)
        · have hA : (rivalStep st pr).preA = st.preA ++ [(pairOrder p1 p2).2] := by
            simp [rivalStep, he1, he2, hp]
          have hB : (rivalStep st pr).preB = st.preB ++ [(pairOrder p1 p2).1] := by
            simp [rivalStep, he1, he2, hp]
          rcases pairOrder_cases p1 p2 with ⟨e1h, e2h⟩ | ⟨e1h, e2h⟩ <;>
            (rw [e2h] at hA
             rw [e1h] at hB
             rw [hD, hF, hA, hB, List.perm_iff_count]
             intro a
             have c1 := hc1.count_eq a
             have c2 := hc2.count_eq a
             simp only [List.map_append, List.count_append, List.map_cons,
               List.map_nil] at c1 c2 ⊢
             omega)
      · rw [hD, hF]
        exact List.Nodup.sublist
          (((hsub2.1.trans hsub1.1).append (hsub2.2.trans hsub1.2)).map _) h

theorem foldl_rivalStep_all (pairs : List (String × String)) (st : RivalState)
    (h : ((st.poolD ++ st.poolF).map (fun p => normName p.name)).Nodup) :
    (((pairs.foldl rivalStep st).poolD ++ (pairs.foldl rivalStep st).poolF ++
        (pairs.foldl rivalStep st).preA ++
        (pairs.foldl rivalStep st).preB).map Player.name).Perm
      ((st.poolD ++ st.poolF ++ st.preA ++ st.preB).map Player.name) := by
  induction pairs generalizing st with
  | nil => exact List.Perm.refl _
  | cons pr rest ih =>
    simp only [List.foldl_cons]
    have hstep := rivalStep_all st pr h
    exact (ih (rivalStep st pr) hstep.2).trans hstep.1

theorem composeTeams_names (tf td : Nat) (st : RivalState) :
    (((composeTeams tf td st).teamA ++ (composeTeams tf td st).teamB ++
        (composeTeams tf td st).cutsD ++
        (composeTeams tf td st).cutsF).map Player.name).Perm
      ((st.poolD ++ st.poolF ++ st.preA ++ st.preB).map Player.name) := by
  have hA := List.perm_insertionSort displayLE
    (st.preA ++ (snake_draft (selectedD td st)).1 ++ (snake_draft (selectedF tf st)).1)
  have hB := List.perm_insertionSort displayLE
    (st.preB ++ (snake_draft (selectedD td st)).2 ++ (snake_draft (selectedF tf st)).2)
  have hsnD := snake_draft_perm (selectedD td st)
  have hsnF := snake_draft_perm (selectedF tf st)
  have hspD := List.perm_insertionSort poolLE st.poolD
  have hspF := List.perm_insertionSort poolLE st.poolF
  rw [List.perm_iff_count]
  intro a
  have cA := (hA.map Player.name).count_eq a
  have cB := (hB.map Player.name).count_eq a
  have cD := (hsnD.map Player.name).count_eq a
  have cF := (hsnF.map Player.name).count_eq a
  rw [selectedD_names] at cD
  rw [selectedF_names] at cF
  have cTD := congrArg (fun l => ((l.map Player.name).count a))
    (List.take_append_drop (td - pinnedCount "D" st) (sortPool st.poolD))
  have cTF := congrArg (fun l => ((l.map Player.name).count a))
    (List.take_append_drop (tf - pinnedCount "F" st) (sortPool st.poolF))
  have cSD := ((hspD.map Player.name).count_eq a)
  have cSF := ((hspF.map Player.name).count_eq a)
  simp only [composeTeams, sortDisplay, cutsDof, cutsFof, sortPool,
    List.map_append, List.count_append] at cA cB cD cF cTD cTF cSD cSF ⊢
  omega

theorem initialPools_names (df : List Player) :
    (((initialPools df).1 ++ (initialPools df).2).map Player.name).Perm
      (((availableOf df).filter
          (fun p => fc p == "D" || fc p == "F")).map Player.name) := by
  have hdisj : ∀ x : Player, (fc x == "D") = true → (fc x == "F") = false := by
    intro x hx
    have hfc : fc x = "D" := by simpa using hx
    rw [hfc]
    rfl
  have hsp := List.perm_insertionSort poolLE (availableOf df)
  have hD := hsp.filter (fun p => fc p == "D")
  have hF := hsp.filter (fun p => fc p == "F")
  have hpair := filter_pair_perm (fun p => fc p == "D") (fun p => fc p == "F")
    (availableOf df) hdisj
  simp only [initialPools, sortPool]
  exact ((hD.append hF).trans hpair).map Player.name

theorem initialPools_nodup (df : List Player)
    (h : ((availableOf df).map (fun p => normName p.name)).Nodup) :
    (((initialPools df).1 ++ (initialPools df).2).map
        (fun p => normName p.name)).Nodup := by
  have hnn := (initialPools_names df).map normName
  rw [map_nn]
  refine (hnn.symm).nodup ?_
  rw [← map_nn]
  exact List.Nodup.sublist ((List.filter_sublist (availableOf df)).map _) h

/-- An available player whose first-choice position is neither F nor D. -/
def ghost : Player :=
  { name := "Ghost", availability := "Y", firstChoice := "G",
    secondChoice := "", score := 3, regSpare := "R", email := "" }

/-- C1 counterexample, both losses the claim as stated admits.  First: an
available player whose first choice is neither F nor D (here a goalie, first
choice G) is split into neither position pool at stage 5 and silently
vanishes, appearing in no team and in no cut list.  Second: even among D/F
players, two available rows sharing a rival's name enter the pools, but the
rivalry extraction drops both rows and the partial-match restore re-appends
only one, so the duplicated name reaches the four outputs once instead of
twice -- a duplicate-named available player is silently lost as well.  Each
conjunct forces one restriction of the amendment. -/
theorem pipeline_loses_players :
    (isAvailable ghost = true ∧
      (pipeline [ghost]).teamA = [] ∧ (pipeline [ghost]).teamB = [] ∧
      (pipeline [ghost]).cutsD = [] ∧ (pipeline [ghost]).cutsF = []) ∧
    ((([mikeRowOne, mikeRowTwo].filter isAvailable).filter
        (fun p => fc p == "D" || fc p == "F")).map Player.name).count
      "Mike Tonietto" = 2 ∧
    (((pipeline [mikeRowOne, mikeRowTwo]).teamA ++
        (pipeline [mikeRowOne, mikeRowTwo]).teamB ++
        (pipeline [mikeRowOne, mikeRowTwo]).cutsD ++
        (pipeline [mikeRowOne, mikeRowTwo]).cutsF).map Player.name).count
      "Mike Tonietto" = 1 := by
  decide

/-- C1 amended: restricted to available players whose cleaned first-choice
position is D or F, the pipeline is a partition: the names on team A, team B
and the two cut lists are a permutation of the available D/F players' names,
and (given pairwise distinct normalised names, as rivalry extraction keys
rows by name) each such player's name appears exactly once across the four
outputs. -/
theorem pipeline_partitions_available (df : List Player)
    (h : ((df.filter isAvailable).map (fun p => normName p.name)).Nodup) :
    (((pipeline df).teamA ++ (pipeline df).teamB ++ (pipeline df).cutsD ++
        (pipeline df).cutsF).map Player.name).Perm
      (((df.filter isAvailable).filter
          (fun p => fc p == "D" || fc p == "F")).map Player.name) ∧
    (∀ p ∈ df.filter isAvailable, (fc p == "D" || fc p == "F") = true →
      (((pipeline df).teamA ++ (pipeline df).teamB ++ (pipeline df).cutsD ++
          (pipeline df).cutsF).map Player.name).count p.name = 1) := by
  have h0 : ((availableOf df).map (fun p => normName p.name)).Nodup := h
  have h1 := initialPools_nodup df h0
  have hfillnames := (fillGaps_perm (computeTargets (availableOf df).length).1
    (computeTargets (availableOf df).length).2 (initialPools df).1
    (initialPools df).2).map Player.name
  have hpf : (((postFill df).1 ++ (postFill df).2).map
      (fun p => normName p.name)).Perm
      (((initialPools df).1 ++ (initialPools df).2).map
        (fun p => normName p.name)) := by
    rw [map_nn, map_nn]
    exact hfillnames.map normName
  have h2 : (((postFill df).1 ++ (postFill df).2).map
      (fun p => normName p.name)).Nodup := (hpf.symm).nodup h1
  have hmid : (((postFill df).1 ++ (postFill df).2 ++ ([] : List Player) ++
      ([] : List Player)).map Player.name).Perm
      (((availableOf df).filter
          (fun p => fc p == "D" || fc p == "F")).map Player.name) := by
    simp only [List.append_nil]
    exact hfillnames.trans (initialPools_names df)
  have hperm : (((pipeline df).teamA ++ (pipeline df).teamB ++
      (pipeline df).cutsD ++ (pipeline df).cutsF).map Player.name).Perm
      (((df.filter isAvailable).filter
          (fun p => fc p == "D" || fc p == "F")).map Player.name) :=
    (composeTeams_names (computeTargets (availableOf df).length).1
        (computeTargets (availableOf df).length).2 (postRivals df)).trans
      ((foldl_rivalStep_all rival_pairs
          ⟨(postFill df).1, (postFill df).2, [], [], [], 0⟩ h2).trans hmid)
  refine ⟨hperm, ?_⟩
  intro p hp hdf
  have hmem : p ∈ (df.filter isAvailable).filter
      (fun p => fc p == "D" || fc p == "F") := List.mem_filter.mpr ⟨hp, hdf⟩
  have hav : ((df.filter isAvailable).map Player.name).Nodup := by
    rw [map_nn] at h
    exact List.Nodup.of_map normName h
  have hnodf : (((df.filter isAvailable).filter
      (fun p => fc p == "D" || fc p == "F")).map Player.name).Nodup :=
    List.Nodup.sublist ((List.filter_sublist _).map Player.name) hav
  have hcount : (((df.filter isAvailable).filter
      (fun p => fc p == "D" || fc p == "F")).map Player.name).count p.name = 1 :=
    List.count_eq_one_of_mem hnodf (List.mem_map_of_mem Player.name hmem)
  rw [← hcount]
  exact hperm.count_eq p.name

/-- C1 amended witness: the two-player table with Dana (first choice D) and
Frank (first choice F), both available and with distinct names. -/
theorem pipeline_partitions_available_witness :
    (((pipeline [dana, frank]).teamA ++ (pipeline [dana, frank]).teamB ++
        (pipeline [dana, frank]).cutsD ++
        (pipeline [dana, frank]).cutsF).map Player.name).Perm
      ((([dana, frank].filter isAvailable).filter
          (fun p => fc p == "D" || fc p == "F")).map Player.name) :=
  (pipeline_partitions_available [dana, frank] (by decide)).1

end Bendo
